import Mathlib

/-!
Verification of the sbootil wire-protocol logic.

The definitions below are shallow embeddings of the Rust sources
(`src/main.rs`, `src/device.rs`).  Machine integers (`u8`, `u64`) are
modelled as `Nat`; device bytes are values below 256.  Blocking serial
reads are modelled by consuming a list of the bytes the device sends;
a read past the end of that list is a blocked/failed run.  Fatal
`assert!`/panic exits are modelled as explicit outcome constructors.
-/

namespace Sbootil

/-- ASCII bytes of the `STRTUPLD` marker sent by the device before a transfer. -/
def STRTUPLD : List Nat := [83, 84, 82, 84, 85, 80, 76, 68]

/-- ASCII bytes of the `ENDUPLD` marker sent by the device after a transfer. -/
def ENDUPLD : List Nat := [69, 78, 68, 85, 80, 76, 68]

/-- ASCII bytes of the `WHOISDIS` serial handshake request. -/
def WHOISDIS : List Nat := [87, 72, 79, 73, 83, 68, 73, 83]

/-- ASCII bytes of the `BOOTSTUB` serial handshake reply magic. -/
def BOOTSTUB : List Nat := [66, 79, 79, 84, 83, 84, 85, 66]

/-- ASCII bytes of the `UPLDMEM` dump command. -/
def UPLDMEM : List Nat := [85, 80, 76, 68, 77, 69, 77]

/-- ASCII bytes of the `BOOTFILE` upload command. -/
def BOOTFILE : List Nat := [66, 79, 79, 84, 70, 73, 76, 69]

/-- Bytes of the `ODIN` USB download-mode handshake request (`main.rs:319`). -/
def ODIN : List Nat := [0x4f, 0x44, 0x49, 0x4e]

/-- Bytes of the `LOKE` USB download-mode handshake reply (`main.rs:330`). -/
def LOKE : List Nat := [0x4c, 0x4f, 0x4b, 0x45]

/-- XOR of a byte list, as folded into the `checksum` accumulator of
`main.rs` (`checksum ^= value[0]`, starting from `0u8`). -/
def xorAll (l : List Nat) : Nat := l.foldl Nat.xor 0

/-- The raw-encoding dump loop of `main.rs:192-204`.  `remaining` starts at
`end_address - start_address`; each iteration reads one byte from the
device stream, XORs it into `checksum`, writes it to the output file while
`remaining > 0`, and breaks (without writing) once `remaining` reached `0`.
Returns `(output bytes, final checksum, unread rest of the stream)`;
`none` models a read blocking forever because the device sent too few
bytes. -/
def dumpLoop : Nat → Nat → List Nat → Option (List Nat × Nat × List Nat)
  | _, _, [] => none
  | remaining, checksum, v :: rest =>
    match remaining with
    | 0 => some ([], Nat.xor checksum v, rest)
    | r + 1 =>
      (dumpLoop r (Nat.xor checksum v) rest).map fun out => (v :: out.1, out.2.1, out.2.2)

theorem dumpLoop_spec (L : Nat) : ∀ (cs : Nat) (s : List Nat), L + 1 ≤ s.length →
    dumpLoop L cs s = some (s.take L, (s.take (L + 1)).foldl Nat.xor cs, s.drop (L + 1)) := by
  induction L with
  | zero =>
    intro cs s h
    match s with
    | v :: rest => simp [dumpLoop]
  | succ n ih =>
    intro cs s h
    match s with
    | v :: rest =>
      have hr : n + 1 ≤ rest.length := by
        simpa using Nat.succ_le_succ_iff.mp h
      simp [dumpLoop, ih (Nat.xor cs v) rest hr, List.take_cons, List.drop_succ_cons]

/-- C1: for a dump over a range with `end ≥ start` and `L = end - start`,
the raw-encoding dump loop reads exactly `L + 1` bytes from the device
stream; the first `L` bytes are written to the output in order, and the
final byte is only XORed into the checksum accumulator, never written. -/
theorem dump_raw_reads_length_plus_one (startAddr endAddr : Nat) (stream : List Nat)
    (hle : startAddr ≤ endAddr) (hlen : (endAddr - startAddr) + 1 ≤ stream.length) :
    dumpLoop (endAddr - startAddr) 0 stream =
      some (stream.take (endAddr - startAddr),
            xorAll (stream.take ((endAddr - startAddr) + 1)),
            stream.drop ((endAddr - startAddr) + 1)) :=
  dumpLoop_spec (endAddr - startAddr) 0 stream hlen

theorem dump_raw_reads_length_plus_one_witness :
    dumpLoop (0x1010 - 0x1000) 0 (List.replicate 17 5) =
      some ((List.replicate 17 5).take (0x1010 - 0x1000),
            xorAll ((List.replicate 17 5).take ((0x1010 - 0x1000) + 1)),
            (List.replicate 17 5).drop ((0x1010 - 0x1000) + 1)) :=
  dump_raw_reads_length_plus_one 0x1000 0x1010 (List.replicate 17 5)
    (by norm_num) (by decide)

/-- C4: XOR-folding the single-byte accumulator over `P ++ [XOR(P)]` yields
`0`, and hence a dump transfer whose device stream is the payload followed
by its XOR checksum byte ends with the checksum accumulator equal to zero. -/
theorem checksum_xor_fold_zero (P rest : List Nat) :
    xorAll (P ++ [xorAll P]) = 0 ∧
    dumpLoop P.length 0 (P ++ [xorAll P] ++ rest) = some (P, 0, rest) := by
  have hfold : xorAll (P ++ [xorAll P]) = 0 := by
    simp only [xorAll, List.foldl_append, List.foldl_cons, List.foldl_nil]
    exact Nat.xor_self _
  refine ⟨hfold, ?_⟩
  have hlen : P.length + 1 ≤ (P ++ [xorAll P] ++ rest).length := by
    simp [List.length_append]
  have h := dumpLoop_spec P.length 0 (P ++ [xorAll P] ++ rest) hlen
  have htake1 : (P ++ [xorAll P] ++ rest).take P.length = P := by
    rw [List.append_assoc]
    exact List.take_left P ([xorAll P] ++ rest)
  have hlen2 : (P ++ [xorAll P]).length = P.length + 1 := by simp
  have htake2 : (P ++ [xorAll P] ++ rest).take (P.length + 1) = P ++ [xorAll P] := by
    rw [← hlen2]
    exact List.take_left (P ++ [xorAll P]) rest
  have hdrop : (P ++ [xorAll P] ++ rest).drop (P.length + 1) = rest := by
    rw [← hlen2]
    exact List.drop_left (P ++ [xorAll P]) rest
  rw [h, htake1, htake2, hdrop]
  have : (P ++ [xorAll P]).foldl Nat.xor 0 = 0 := hfold
  rw [this]

/-- Outcome of the upload byte-streaming loop of `main.rs:249-267`. -/
inductive UploadOutcome
  | ok
  | echoMismatch (sent got : Nat)
  | underflow
  | blocked
deriving DecidableEq

/-- Observable trace of one run of the upload loop: the bytes written to
the device in order, the (un-decremented) `binary_size` values at which an
echo round-trip happened, and how the loop ended. -/
structure UploadTrace where
  written : List Nat
  echoChecks : List Nat
  outcome : UploadOutcome
deriving DecidableEq

/-- Prepends one written byte (no echo round-trip) to a trace. -/
def UploadTrace.consByte (v : Nat) (t : UploadTrace) : UploadTrace :=
  ⟨v :: t.written, t.echoChecks, t.outcome⟩

/-- Prepends one written byte together with its echo round-trip (performed
at un-decremented counter value `r`) to a trace. -/
def UploadTrace.consEcho (v r : Nat) (t : UploadTrace) : UploadTrace :=
  ⟨v :: t.written, r :: t.echoChecks, t.outcome⟩

/-- The upload loop of `main.rs:249-267`, entered with
`remaining = binary_size` (the file length from `main.rs:230`).  Each
iteration reads one byte from the file (the `[0u8; 1]` buffer stays `0`
at end of file, so `headD 0`), writes it to the device, performs an echo
round-trip when the un-decremented `remaining % 256 == 0` (`.blocked` if
the device never answers, fatal `.echoMismatch` if the echoed byte
differs), then decrements `remaining` — a decrement at `0` is the u64
underflow, modelled as `.underflow` — and breaks once it reaches `0`. -/
def uploadLoop : Nat → List Nat → List Nat → UploadTrace
  | 0, file, es =>
    let value := file.headD 0
    match es with
    | [] => ⟨[value], [0], .blocked⟩
    | e :: _ =>
      if value = e then ⟨[value], [0], .underflow⟩
      else ⟨[value], [0], .echoMismatch value e⟩
  | r + 1, file, es =>
    let value := file.headD 0
    if (r + 1) % 256 = 0 then
      match es with
      | [] => ⟨[value], [r + 1], .blocked⟩
      | e :: es2 =>
        if value = e then
          if r = 0 then ⟨[value], [r + 1], .ok⟩
          else (uploadLoop r file.tail es2).consEcho value (r + 1)
        else ⟨[value], [r + 1], .echoMismatch value e⟩
    else
      if r = 0 then ⟨[value], [], .ok⟩
      else (uploadLoop r file.tail es).consByte value

/-- Echo bytes a correctly-echoing device sends back during an upload of
`file` starting at counter value `n`: one copy of the byte just written,
at every counter value divisible by 256. -/
def correctEchoes : Nat → List Nat → List Nat
  | 0, _ => []
  | n + 1, file =>
    (if (n + 1) % 256 = 0 then [file.headD 0] else []) ++ correctEchoes n file.tail

/-- Counter values in `[1, n]` at which the upload loop performs an echo
round-trip, in the descending order they are visited. -/
def echoPositions : Nat → List Nat
  | 0 => []
  | n + 1 => (if (n + 1) % 256 = 0 then [n + 1] else []) ++ echoPositions n

theorem uploadLoop_one (file es : List Nat) :
    uploadLoop 1 file es = ⟨[file.headD 0], [], .ok⟩ := rfl

theorem uploadLoop_step (n : Nat) (file es : List Nat) (h2 : 2 ≤ n) (hm : n % 256 ≠ 0) :
    uploadLoop n file es = (uploadLoop (n - 1) file.tail es).consByte (file.headD 0) := by
  obtain ⟨r, rfl⟩ : ∃ r, n = r + 2 := ⟨n - 2, by omega⟩
  have hr : r + 2 - 1 = r + 1 := by omega
  rw [hr]
  show uploadLoop ((r + 1) + 1) file es = _
  rw [uploadLoop.eq_def]
  simp only [hm, if_false, if_neg (by omega : ¬ r + 1 = 0)]

theorem uploadLoop_step_echo (n : Nat) (file : List Nat) (e : Nat) (es2 : List Nat)
    (h2 : 2 ≤ n) (hm : n % 256 = 0) :
    uploadLoop n file (e :: es2) =
      if file.headD 0 = e then (uploadLoop (n - 1) file.tail es2).consEcho (file.headD 0) n
      else ⟨[file.headD 0], [n], .echoMismatch (file.headD 0) e⟩ := by
  obtain ⟨r, rfl⟩ : ∃ r, n = r + 2 := ⟨n - 2, by omega⟩
  have hr : r + 2 - 1 = r + 1 := by omega
  rw [hr]
  show uploadLoop ((r + 1) + 1) file (e :: es2) = _
  rw [uploadLoop.eq_def]
  simp only [hm, if_true, if_neg (by omega : ¬ r + 1 = 0)]

/-- Runs of the upload loop below the first echo boundary: no echo
round-trip happens for `0 < n < 256` and the whole prefix is streamed. -/
theorem uploadLoop_noEcho (n : Nat) : ∀ (file es : List Nat), 0 < n → n < 256 →
    n ≤ file.length → uploadLoop n file es = ⟨file.take n, [], .ok⟩ := by
  induction n with
  | zero => intro file es h0; omega
  | succ m ih =>
    intro file es h0 hlt hlen
    match file with
    | x :: t =>
      match m, ih with
      | 0, _ => simpa using uploadLoop_one (x :: t) es
      | m' + 1, ih =>
        rw [uploadLoop_step (m' + 2) (x :: t) es (by omega) (by omega)]
        rw [show m' + 2 - 1 = m' + 1 by omega]
        rw [ih (x :: t).tail es (by omega) (by omega) (by simpa using Nat.succ_le_succ_iff.mp hlen)]
        simp [UploadTrace.consByte]

/-- Runs of the upload loop starting at `256 + s` for `s ≤ 255`: exactly
one echo round-trip remains, at counter value 256, checking the byte at
offset `s` of the remaining file; a wrong echo is a fatal mismatch. -/
theorem uploadLoop_cross (s : Nat) : ∀ (file : List Nat) (e : Nat) (es2 : List Nat),
    s ≤ 255 → 256 + s ≤ file.length →
    uploadLoop (256 + s) file (e :: es2) =
      if (file.drop s).headD 0 = e then ⟨file.take (256 + s), [256], .ok⟩
      else ⟨file.take (s + 1), [256], .echoMismatch ((file.drop s).headD 0) e⟩ := by
  induction s with
  | zero =>
    intro file e es2 hs hlen
    match file with
    | x :: t =>
      rw [uploadLoop_step_echo 256 (x :: t) e es2 (by omega) (by omega)]
      rw [show (256 : Nat) - 1 = 255 by omega]
      rw [uploadLoop_noEcho 255 (x :: t).tail es2 (by omega) (by omega)
        (by simpa using Nat.succ_le_succ_iff.mp hlen)]
      simp [UploadTrace.consEcho, List.take_cons]
  | succ s' ih =>
    intro file e es2 hs hlen
    match file with
    | x :: t =>
      rw [show 256 + (s' + 1) = (256 + s') + 1 by omega]
      rw [uploadLoop_step ((256 + s') + 1) (x :: t) (e :: es2) (by omega) (by omega)]
      rw [show (256 + s') + 1 - 1 = 256 + s' by omega]
      rw [ih (x :: t).tail e es2 (by omega) (by simpa using Nat.succ_le_succ_iff.mp hlen)]
      by_cases hcond : ((x :: t).tail.drop s').headD 0 = e
      · rw [if_pos hcond, if_pos (by simpa using hcond)]
        simp [UploadTrace.consByte, List.take_cons]
      · rw [if_neg hcond, if_neg (by simpa using hcond)]
        simp [UploadTrace.consByte, List.take_cons]

/-- C3: uploading a 512-byte file performs exactly two echo round-trips,
at un-decremented counter values 512 (the first byte) and 256 (the 257th
byte); with a correctly echoing device the whole file is streamed and the
loop ends normally, while a wrong echoed byte at either round-trip is a
fatal echo mismatch. -/
theorem upload_512_echo_roundTrips (file : List Nat) (h : file.length = 512) :
    uploadLoop 512 file [file.headD 0, (file.drop 256).headD 0] =
      ⟨file, [512, 256], .ok⟩ ∧
    (∀ e es, file.headD 0 ≠ e →
      uploadLoop 512 file (e :: es) =
        ⟨[file.headD 0], [512], .echoMismatch (file.headD 0) e⟩) ∧
    (∀ e es, (file.drop 256).headD 0 ≠ e →
      uploadLoop 512 file (file.headD 0 :: e :: es) =
        ⟨file.take 257, [512, 256], .echoMismatch ((file.drop 256).headD 0) e⟩) := by
  match file, h with
  | x :: t, h =>
    have ht : t.length = 511 := by simpa using h
    have hstep : ∀ e es2, uploadLoop 512 (x :: t) (e :: es2) =
        if (x :: t).headD 0 = e
        then (uploadLoop 511 (x :: t).tail es2).consEcho ((x :: t).headD 0) 512
        else ⟨[(x :: t).headD 0], [512], .echoMismatch ((x :: t).headD 0) e⟩ := by
      intro e es2
      rw [uploadLoop_step_echo 512 (x :: t) e es2 (by omega) (by omega)]
    have hcross : ∀ e es2, uploadLoop 511 t (e :: es2) =
        if (t.drop 255).headD 0 = e then ⟨t.take 511, [256], .ok⟩
        else ⟨t.take 256, [256], .echoMismatch ((t.drop 255).headD 0) e⟩ := by
      intro e es2
      have := uploadLoop_cross 255 t e es2 (by omega) (by omega)
      simpa using this
    have hdrop : ((x :: t).drop 256).headD 0 = (t.drop 255).headD 0 := by
      simp [List.drop_succ_cons]
    refine ⟨?_, ?_, ?_⟩
    · rw [hstep, if_pos rfl]
      rw [show (x :: t).tail = t from rfl]
      rw [hcross, if_pos hdrop.symm]
      have htake : t.take 511 = t := by rw [← ht]; simp
      simp [UploadTrace.consEcho, htake]
    · intro e es hne
      rw [hstep, if_neg hne]
    · intro e es hne
      rw [hstep, if_pos rfl]
      rw [show (x :: t).tail = t from rfl]
      rw [hcross, if_neg (by rw [← hdrop]; exact hne)]
      simp [UploadTrace.consEcho, List.take_cons, hdrop]

theorem upload_512_echo_roundTrips_witness :
    uploadLoop 512 (List.replicate 512 9)
        [(List.replicate 512 9).headD 0, ((List.replicate 512 9).drop 256).headD 0] =
      ⟨List.replicate 512 9, [512, 256], .ok⟩ :=
  (upload_512_echo_roundTrips (List.replicate 512 9) (by rw [List.length_replicate])).1

/-- Running the upload loop from counter `n` over `file` against a
correctly echoing device streams `file.take n`, echo-checks exactly at the
counter values of `echoPositions n`, and terminates normally. -/
theorem uploadLoop_run (n : Nat) : ∀ file : List Nat, 0 < n → n ≤ file.length →
    uploadLoop n file (correctEchoes n file) = ⟨file.take n, echoPositions n, .ok⟩ := by
  induction n with
  | zero => intro file h0; omega
  | succ m ih =>
    intro file h0 hlen
    match file with
    | x :: t =>
      by_cases hm : (m + 1) % 256 = 0
      · have hech : correctEchoes (m + 1) (x :: t) = x :: correctEchoes m t := by
          simp [correctEchoes, hm]
        have hm2 : 2 ≤ m + 1 := by omega
        rw [hech, uploadLoop_step_echo (m + 1) (x :: t) x (correctEchoes m t) hm2 hm]
        simp only [List.headD_cons, if_true]
        have hmpos : 0 < m := by omega
        rw [show m + 1 - 1 = m by omega, show (x :: t).tail = t from rfl]
        rw [ih t hmpos (by simpa using Nat.succ_le_succ_iff.mp hlen)]
        simp [UploadTrace.consEcho, echoPositions, hm, List.take_cons]
      · have hech : correctEchoes (m + 1) (x :: t) = correctEchoes m t := by
          simp [correctEchoes, hm]
        match m with
        | 0 =>
          rw [hech, uploadLoop_one]
          simp [correctEchoes, echoPositions, List.take_cons]
        | m' + 1 =>
          rw [hech, uploadLoop_step (m' + 2) (x :: t) (correctEchoes (m' + 1) t)
            (by omega) hm]
          rw [show m' + 2 - 1 = m' + 1 by omega, show (x :: t).tail = t from rfl]
          rw [ih t (by omega) (by simpa using Nat.succ_le_succ_iff.mp hlen)]
          simp [UploadTrace.consByte, echoPositions, hm, List.take_cons]

/-- Characterisation of the echo-check positions: an echo round-trip
happens exactly at the counter values in `[1, n]` divisible by 256. -/
theorem echoPositions_mem (n : Nat) : ∀ k, k ∈ echoPositions n ↔
    (0 < k ∧ k ≤ n ∧ k % 256 = 0) := by
  induction n with
  | zero => intro k; simp [echoPositions]; omega
  | succ m ih =>
    intro k
    by_cases hm : (m + 1) % 256 = 0 <;> simp [echoPositions, hm, ih k] <;> omega

/-- C5 (amended): during upload, an echo round-trip occurs exactly when
the un-decremented counter value is divisible by 256 — in particular on
the *first* byte whenever the file size is a multiple of 256 — and never
on the final byte (counter value 1). -/
theorem upload_echo_positions (n : Nat) (file : List Nat) (h0 : 0 < n)
    (hlen : n ≤ file.length) :
    (uploadLoop n file (correctEchoes n file)).echoChecks = echoPositions n ∧
    (uploadLoop n file (correctEchoes n file)).outcome = .ok ∧
    (∀ k, k ∈ echoPositions n ↔ (0 < k ∧ k ≤ n ∧ k % 256 = 0)) ∧
    (n % 256 = 0 → n ∈ echoPositions n) ∧
    1 ∉ echoPositions n := by
  have hrun := uploadLoop_run n file h0 hlen
  refine ⟨by rw [hrun], by rw [hrun], echoPositions_mem n, ?_, ?_⟩
  · intro hmod
    exact (echoPositions_mem n n).mpr ⟨h0, le_rfl, hmod⟩
  · intro hmem
    have := (echoPositions_mem n 1).mp hmem
    omega

theorem upload_echo_positions_witness :
    (uploadLoop 512 (List.replicate 512 3) (correctEchoes 512 (List.replicate 512 3))).echoChecks
      = echoPositions 512 ∧
    (512 : Nat) ∈ echoPositions 512 ∧ (1 : Nat) ∉ echoPositions 512 := by
  have h := upload_echo_positions 512 (List.replicate 512 3) (by omega)
    (by rw [List.length_replicate])
  exact ⟨h.1, h.2.2.2.1 (by norm_num), h.2.2.2.2⟩

/-- C5 counterexample: for a 256-byte file (a size that is a multiple of
256) the only echo round-trip happens at counter value 256, i.e. on the
*first* byte; no echo round-trip happens on the final byte, whose
un-decremented counter value is 1. -/
theorem upload_echo_final_byte_fails :
    (uploadLoop 256 (List.replicate 256 7) [7]).echoChecks = [256] ∧
    (uploadLoop 256 (List.replicate 256 7) [7]).outcome = .ok ∧
    (1 : Nat) ∉ (uploadLoop 256 (List.replicate 256 7) [7]).echoChecks := by
  decide

/-- C10: for a non-empty file of size `n` the upload loop runs exactly `n`
iterations, writing exactly the `n` file bytes to the device, and the
countdown never underflows; for an empty file the loop body still runs
once, writing a byte (`0`, the untouched read buffer) that does not come
from the file, and the decrement of the counter at `0` underflows. -/
theorem upload_loop_iterations (file es : List Nat) (h0 : 0 < file.length) :
    (uploadLoop file.length file (correctEchoes file.length file)).written = file ∧
    (uploadLoop file.length file (correctEchoes file.length file)).written.length
      = file.length ∧
    (uploadLoop file.length file (correctEchoes file.length file)).outcome = .ok ∧
    uploadLoop 0 [] (0 :: es) = ⟨[0], [0], .underflow⟩ := by
  have hrun := uploadLoop_run file.length file h0 le_rfl
  refine ⟨?_, ?_, by rw [hrun], rfl⟩
  · rw [hrun]; simp
  · rw [hrun]; simp

theorem upload_loop_iterations_witness :
    (uploadLoop 1 [3] (correctEchoes 1 [3])).written = [3] ∧
    uploadLoop 0 [] [0] = ⟨[0], [0], .underflow⟩ := by
  have h := upload_loop_iterations [3] [] (by decide)
  exact ⟨h.1, h.2.2.2⟩

/-- Outcome of the dump command after the `STRTUPLD` acknowledgment is
expected (`main.rs:180-218`): fatal mismatch of the start or end marker,
a blocked device read, or a normal end. -/
inductive DumpOutcome
  | ok
  | badStart (got : List Nat)
  | badEnd (got : List Nat)
  | blocked
deriving DecidableEq

/-- Observable result of the dump command: bytes written to the output
file, whether the checksum-mismatch warning was printed, and the outcome. -/
structure DumpRun where
  output : List Nat
  warned : Bool
  outcome : DumpOutcome
deriving DecidableEq

/-- The dump command of `main.rs:180-218` from the point where the device
starts answering: read 8 bytes and assert `STRTUPLD` (fatal otherwise),
run the raw dump loop over `L = end - start`, print the checksum warning
if the accumulator is non-zero (non-fatal), then read 7 bytes and assert
`ENDUPLD` (fatal otherwise).  `stream` is the byte sequence the device
sends. -/
def dumpSession (L : Nat) (stream : List Nat) : DumpRun :=
  let strt := stream.take 8
  if strt = STRTUPLD then
    match dumpLoop L 0 (stream.drop 8) with
    | none => ⟨[], false, .blocked⟩
    | some (out, cs, rest) =>
      let fin := rest.take 7
      if fin = ENDUPLD then ⟨out, cs != 0, .ok⟩ else ⟨out, cs != 0, .badEnd fin⟩
  else ⟨[], false, .badStart strt⟩

/-- C9: if the device streams `L + 1` loop bytes (payload plus trailing
checksum byte) followed by a well-formed `ENDUPLD` trailer, the dump
command keeps the first `L` bytes as the completed output, prints the
checksum warning exactly when the accumulator is non-zero, still reads and
validates the trailer, and ends normally — the checksum mismatch alone
never aborts the command. -/
theorem dump_checksum_warning_nonfatal (L : Nat) (loopBytes rest : List Nat)
    (h : loopBytes.length = L + 1) :
    dumpSession L (STRTUPLD ++ loopBytes ++ ENDUPLD ++ rest) =
      ⟨loopBytes.take L, xorAll loopBytes != 0, .ok⟩ := by
  have hstrt : (STRTUPLD ++ loopBytes ++ ENDUPLD ++ rest).take 8 = STRTUPLD := by
    rw [List.append_assoc, List.append_assoc]
    rw [show (8 : Nat) = STRTUPLD.length from rfl]
    exact List.take_left STRTUPLD (loopBytes ++ (ENDUPLD ++ rest))
  have hdrop8 : (STRTUPLD ++ loopBytes ++ ENDUPLD ++ rest).drop 8
      = loopBytes ++ ENDUPLD ++ rest := by
    rw [List.append_assoc, List.append_assoc]
    rw [show (8 : Nat) = STRTUPLD.length from rfl]
    rw [List.drop_left STRTUPLD (loopBytes ++ (ENDUPLD ++ rest))]
    rw [List.append_assoc]
  have hlen : L + 1 ≤ (loopBytes ++ ENDUPLD ++ rest).length := by
    simp [List.length_append, h]
  have hloop := dumpLoop_spec L 0 (loopBytes ++ ENDUPLD ++ rest) hlen
  have htakeL : (loopBytes ++ ENDUPLD ++ rest).take L = loopBytes.take L := by
    rw [List.append_assoc]
    rw [List.take_append_eq_append_take]
    rw [show L - loopBytes.length = 0 by omega]
    simp
  have htakeL1 : (loopBytes ++ ENDUPLD ++ rest).take (L + 1) = loopBytes := by
    rw [List.append_assoc]
    rw [List.take_append_eq_append_take]
    rw [show L + 1 - loopBytes.length = 0 by omega]
    simp [h]
  have hdropL1 : (loopBytes ++ ENDUPLD ++ rest).drop (L + 1) = ENDUPLD ++ rest := by
    rw [List.append_assoc, ← h]
    exact List.drop_left loopBytes (ENDUPLD ++ rest)
  have hfin : (ENDUPLD ++ rest).take 7 = ENDUPLD := by
    rw [show (7 : Nat) = ENDUPLD.length from rfl]
    exact List.take_left ENDUPLD rest
  rw [dumpSession, hstrt, if_pos rfl, hdrop8, hloop, htakeL, htakeL1, hdropL1]
  simp only [hfin, if_pos rfl]
  rfl

theorem dump_checksum_warning_nonfatal_witness :
    dumpSession 16 (STRTUPLD ++ (List.replicate 16 5 ++ [9]) ++ ENDUPLD ++ []) =
      ⟨(List.replicate 16 5 ++ [9]).take 16, xorAll (List.replicate 16 5 ++ [9]) != 0, .ok⟩ :=
  dump_checksum_warning_nonfatal 16 (List.replicate 16 5 ++ [9]) [] (by decide)

/-- Zero-padded fixed-size packet write of `device.rs:75-85`: builds a
buffer of exactly `size` bytes whose prefix is `buf` and whose remainder
is zero, handed to `write` as one bulk transfer.  The slice-bounds panic
when `buf.len() > size` (the fatal payload-too-large failure) is modelled
as `none`. -/
def write_packet (buf : List Nat) (size : Nat) : Option (List Nat) :=
  if buf.length ≤ size then some (buf ++ List.replicate (size - buf.length) 0) else none

/-- C8: `write_packet` submits a single packet of exactly `size` bytes —
the payload followed by zero padding — whenever the payload fits, and
fails fatally whenever the payload exceeds `size`. -/
theorem write_packet_pads_or_fails (buf : List Nat) (size : Nat) :
    (buf.length ≤ size →
      write_packet buf size = some (buf ++ List.replicate (size - buf.length) 0) ∧
      (buf ++ List.replicate (size - buf.length) 0).length = size ∧
      (buf ++ List.replicate (size - buf.length) 0).take buf.length = buf ∧
      (buf ++ List.replicate (size - buf.length) 0).drop buf.length
        = List.replicate (size - buf.length) 0) ∧
    (size < buf.length → write_packet buf size = none) := by
  constructor
  · intro hle
    refine ⟨by simp [write_packet, hle], ?_, ?_, ?_⟩
    · simp [List.length_append]; omega
    · exact List.take_left buf (List.replicate (size - buf.length) 0)
    · exact List.drop_left buf (List.replicate (size - buf.length) 0)
  · intro hgt
    simp [write_packet]
    omega

theorem write_packet_pads_or_fails_witness :
    write_packet [1, 2] 4 = some [1, 2, 0, 0] ∧ write_packet [1, 2, 3] 2 = none := by
  have h1 := (write_packet_pads_or_fails [1, 2] 4).1 (by decide)
  have h2 := (write_packet_pads_or_fails [1, 2, 3] 2).2 (by decide)
  exact ⟨by rw [h1.1]; rfl, h2⟩

/-- The serial handshake check of `main.rs:138-152`: the program writes
`WHOISDIS`, reads once into a 16 KiB buffer (`resp` is what the read
returned), and asserts that the final 8 bytes equal `BOOTSTUB`; a
response shorter than 8 bytes makes the slice indexing panic, so it also
aborts. -/
def serialHandshakeOk (resp : List Nat) : Bool :=
  decide (8 ≤ resp.length) && (resp.drop (resp.length - 8) == BOOTSTUB)

/-- The USB download-mode handshake check of `main.rs:316-333`: the
program writes `ODIN`, reads 4 bytes, and asserts they equal `LOKE`. -/
def usbHandshakeOk (resp : List Nat) : Bool := resp == LOKE

/-- A bootstub subcommand together with the device behaviour the boot
path depends on: `dump` carries the textual start/end addresses; `boot`
carries the textual size, the file bytes, the device's reply to
`BOOTFILE`, and its echo bytes. -/
inductive BootstubCmd
  | dump (startStr endStr : List Nat)
  | boot (sizeStr file startResp echoes : List Nat)

/-- Bytes the selected subcommand writes to the device after a successful
handshake (`main.rs:154-286`): the dump path writes `UPLDMEM` and the two
textual addresses (its loop only reads); the boot path writes `BOOTFILE`
and the textual size, and streams file bytes only if the device answered
`STRTUPLD` (the `assert_eq!` aborts otherwise). -/
def cmdWrites : BootstubCmd → List (List Nat)
  | .dump startStr endStr => [UPLDMEM, startStr, endStr]
  | .boot sizeStr file startResp echoes =>
    [BOOTFILE, sizeStr] ++
      (if startResp == STRTUPLD
       then (uploadLoop file.length file echoes).written.map (fun b => [b])
       else [])

/-- Every write the bootstub command flow performs on the serial device:
`WHOISDIS` first, then — only if the handshake assertion passed — the
subcommand's session writes. -/
def bootstubDeviceWrites (resp : List Nat) (cmd : BootstubCmd) : List (List Nat) :=
  WHOISDIS :: (if serialHandshakeOk resp then cmdWrites cmd else [])

/-- The 1024-byte session packet with the given 8-byte command head, as
built by `write_packet` in the download-mode session (`main.rs:335-364`). -/
def odinPacket (head : List Nat) : List Nat := head ++ List.replicate (1024 - head.length) 0

/-- Every write the download-mode command flow performs on the USB device
when every read returns: `ODIN` first, then — only if the handshake
assertion passed — the 1024-byte open-session and close-session packets. -/
def downloadDeviceWrites (resp : List Nat) : List (List Nat) :=
  ODIN :: (if usbHandshakeOk resp then
    [odinPacket [0x64, 0, 0, 0, 0, 0, 0, 0], odinPacket [0x67, 0, 0, 0, 1, 0, 0, 0]]
  else [])

/-- C6: a handshake response that does not end in the expected magic
(`BOOTSTUB` for serial, `LOKE` for USB) aborts the program before any
session-specific bytes are written: the only write ever made is the
handshake request itself — no `UPLDMEM`, no `BOOTFILE`, and no 1024-byte
session packet. -/
theorem handshake_failure_no_session_bytes (respS respU : List Nat) (cmd : BootstubCmd)
    (hS : serialHandshakeOk respS = false) (hU : usbHandshakeOk respU = false) :
    bootstubDeviceWrites respS cmd = [WHOISDIS] ∧
    downloadDeviceWrites respU = [ODIN] ∧
    (∀ w ∈ bootstubDeviceWrites respS cmd, w ≠ UPLDMEM ∧ w ≠ BOOTFILE ∧ w.length ≠ 1024) ∧
    (∀ w ∈ downloadDeviceWrites respU, w.length ≠ 1024) ∧
    (∀ r : List Nat, serialHandshakeOk r = true ↔
      (8 ≤ r.length ∧ r.drop (r.length - 8) = BOOTSTUB)) ∧
    (∀ r : List Nat, usbHandshakeOk r = true ↔ r = LOKE) := by
  have hSw : bootstubDeviceWrites respS cmd = [WHOISDIS] := by
    simp [bootstubDeviceWrites, hS]
  have hUw : downloadDeviceWrites respU = [ODIN] := by
    simp [downloadDeviceWrites, hU]
  refine ⟨hSw, hUw, ?_, ?_, ?_, ?_⟩
  · intro w hw
    rw [hSw] at hw
    simp at hw
    subst hw
    refine ⟨by decide, by decide, by decide⟩
  · intro w hw
    rw [hUw] at hw
    simp at hw
    subst hw
    decide
  · intro r
    simp [serialHandshakeOk]
  · intro r
    simp [usbHandshakeOk]

theorem handshake_failure_no_session_bytes_witness :
    bootstubDeviceWrites [66] (.dump [] []) = [WHOISDIS] ∧
    downloadDeviceWrites [66] = [ODIN] :=
  have h := handshake_failure_no_session_bytes [66] [66] (.dump [] [])
    (by decide) (by decide)
  ⟨h.1, h.2.1⟩

/-- One endpoint descriptor, reduced to what `device.rs` inspects: its
address and its direction (`isIn = true` for `Direction::In`). -/
structure EndpointDescriptor where
  address : Nat
  isIn : Bool
deriving DecidableEq

/-- One interface descriptor (alternate setting), reduced to what
`device.rs` inspects: setting number, class code, endpoint list (whose
length is `num_endpoints()`). -/
structure InterfaceDescriptor where
  settingNumber : Nat
  classCode : Nat
  endpoints : List EndpointDescriptor
deriving DecidableEq

/-- One interface of the configuration descriptor: its number and its
alternate-setting descriptors, in scan order. -/
structure UsbInterface where
  number : Nat
  descriptors : List InterfaceDescriptor
deriving DecidableEq

/-- Result of `UsbCdcDevice::from_handle` (`device.rs:14-52`): a selected
interface/setting/endpoint-pair, a panic (the `.next().unwrap()` on an
empty direction filter), or the `No matching interface found` error. -/
inductive UsbSelectResult
  | ok (interface setting epIn epOut : Nat)
  | panicked
  | noMatch
deriving DecidableEq

/-- The per-descriptor body of the scan loop in `device.rs:18-48`:
descriptors with `num_endpoints() != 2` or class code `!= 0x0a` are
skipped (`none`); otherwise the loop returns, taking the first IN and
first OUT endpoint and panicking on `unwrap` if either is missing. -/
def selectFromDescriptor (ifnum : Nat) (d : InterfaceDescriptor) : Option UsbSelectResult :=
  if d.endpoints.length ≠ 2 then none
  else if d.classCode ≠ 0x0a then none
  else some (match d.endpoints.find? (fun e => e.isIn),
                   d.endpoints.find? (fun e => !e.isIn) with
    | some ein, some eout => .ok ifnum d.settingNumber ein.address eout.address
    | _, _ => .panicked)

/-- The inner loop of `device.rs:18-48` over one interface's descriptors. -/
def selectFromDescriptors (ifnum : Nat) : List InterfaceDescriptor → Option UsbSelectResult
  | [] => none
  | d :: rest =>
    match selectFromDescriptor ifnum d with
    | some r => some r
    | none => selectFromDescriptors ifnum rest

/-- Constructor `UsbCdcDevice::from_handle` (`device.rs:14-52`): scans the interfaces
of the configuration descriptor in order; the first descriptor with
exactly two endpoints and class code `0x0a` ends the scan; if none
matches, the constructor fails with the configuration error. -/
def from_handle : List UsbInterface → UsbSelectResult
  | [] => .noMatch
  | i :: rest =>
    match selectFromDescriptors i.number i.descriptors with
    | some r => r
    | none => from_handle rest

/-- The filter the code actually applies before ending the scan:
exactly two endpoints and class code `0x0a` — the endpoint directions are
*not* part of this filter. -/
def codeInterfaceMatch (d : InterfaceDescriptor) : Bool :=
  d.endpoints.length == 2 && d.classCode == 0x0a

/-- Formalisation of the claim's words (the selection rule the claim
asserts): class code `0x0a`, exactly two endpoints, one IN and one OUT. -/
def specInterfaceMatch (d : InterfaceDescriptor) : Bool :=
  d.endpoints.length == 2 && d.classCode == 0x0a &&
    d.endpoints.any (fun e => e.isIn) && d.endpoints.any (fun e => !e.isIn)

/-- What the scan does with the first code-matching descriptor: select its
first IN and first OUT endpoint, or panic on `unwrap` if a direction is
missing. -/
def outcomeOf (n : Nat) (d : InterfaceDescriptor) : UsbSelectResult :=
  match d.endpoints.find? (fun e => e.isIn), d.endpoints.find? (fun e => !e.isIn) with
  | some ein, some eout => .ok n d.settingNumber ein.address eout.address
  | _, _ => .panicked

/-- All (interface number, descriptor) candidates in scan order. -/
def scanCandidates (ifaces : List UsbInterface) : List (Nat × InterfaceDescriptor) :=
  ifaces.flatMap (fun i => i.descriptors.map (fun d => (i.number, d)))

theorem selectFromDescriptor_eq (n : Nat) (d : InterfaceDescriptor) :
    selectFromDescriptor n d =
      if codeInterfaceMatch d then some (outcomeOf n d) else none := by
  by_cases h1 : d.endpoints.length = 2 <;> by_cases h2 : d.classCode = 0x0a <;>
    simp [selectFromDescriptor, codeInterfaceMatch, outcomeOf, h1, h2]

theorem selectFromDescriptors_eq (n : Nat) (ds : List InterfaceDescriptor) :
    selectFromDescriptors n ds = (ds.find? codeInterfaceMatch).map (outcomeOf n) := by
  induction ds with
  | nil => rfl
  | cons d rest ih =>
    by_cases h : codeInterfaceMatch d
    · rw [selectFromDescriptors, selectFromDescriptor_eq, if_pos h,
        List.find?_cons_of_pos _ h]
      rfl
    · rw [selectFromDescriptors, selectFromDescriptor_eq, if_neg h,
        List.find?_cons_of_neg _ (by simpa using h)]
      exact ih

theorem find?_append_first {α : Type} (p : α → Bool) (l1 l2 : List α) :
    (l1 ++ l2).find? p =
      match l1.find? p with
      | some x => some x
      | none => l2.find? p := by
  induction l1 with
  | nil => rfl
  | cons a t ih =>
    by_cases h : p a
    · rw [List.cons_append, List.find?_cons_of_pos _ h, List.find?_cons_of_pos _ h]
    · rw [List.cons_append, List.find?_cons_of_neg _ (by simpa using h),
        List.find?_cons_of_neg _ (by simpa using h)]
      exact ih

theorem find?_map_pair (n : Nat) (ds : List InterfaceDescriptor) :
    ((ds.map (fun d => (n, d))).find? (fun p => codeInterfaceMatch p.2)) =
      (ds.find? codeInterfaceMatch).map (fun d => (n, d)) := by
  induction ds with
  | nil => rfl
  | cons d rest ih =>
    by_cases h : codeInterfaceMatch d
    · rw [List.map_cons, List.find?_cons_of_pos _ (by simpa using h),
        List.find?_cons_of_pos _ h]
      rfl
    · rw [List.map_cons, List.find?_cons_of_neg _ (by simpa using h),
        List.find?_cons_of_neg _ (by simpa using h)]
      exact ih

/-- Function `from_handle` is first-match selection over the candidates in scan
order, where the match condition is the code's filter (two endpoints and
class `0x0a` only). -/
theorem from_handle_eq (ifaces : List UsbInterface) :
    from_handle ifaces =
      match (scanCandidates ifaces).find? (fun p => codeInterfaceMatch p.2) with
      | some p => outcomeOf p.1 p.2
      | none => .noMatch := by
  induction ifaces with
  | nil => rfl
  | cons i rest ih =>
    rw [from_handle, selectFromDescriptors_eq]
    rw [show scanCandidates (i :: rest)
        = i.descriptors.map (fun d => (i.number, d)) ++ scanCandidates rest from rfl]
    rw [find?_append_first, find?_map_pair]
    match hf : i.descriptors.find? codeInterfaceMatch with
    | some d => rfl
    | none => exact ih

/-- C7 (amended): the scan selects the *first* descriptor, in interface
order, with exactly two endpoints and class code `0x0a`; it then takes
that descriptor's first IN and first OUT endpoint, panicking if the
chosen descriptor lacks an IN or an OUT endpoint (it does not skip to a
later interface); if no descriptor passes the two-endpoint/class filter,
the constructor fails with the fatal configuration error before any
transfer, and at most one interface is ever selected. -/
theorem usb_select_first_code_match (ifaces : List UsbInterface) :
    ((scanCandidates ifaces).find? (fun p => codeInterfaceMatch p.2) = none →
      from_handle ifaces = .noMatch) ∧
    (∀ n d, (scanCandidates ifaces).find? (fun p => codeInterfaceMatch p.2) = some (n, d) →
      from_handle ifaces = outcomeOf n d) := by
  constructor
  · intro h
    rw [from_handle_eq, h]
  · intro n d h
    rw [from_handle_eq, h]

theorem usb_select_first_code_match_witness :
    from_handle [⟨0, [⟨0, 0x0a, [⟨0x81, true⟩, ⟨0x02, false⟩]⟩]⟩] =
      outcomeOf 0 ⟨0, 0x0a, [⟨0x81, true⟩, ⟨0x02, false⟩]⟩ :=
  (usb_select_first_code_match [⟨0, [⟨0, 0x0a, [⟨0x81, true⟩, ⟨0x02, false⟩]⟩]⟩]).2
    0 ⟨0, 0x0a, [⟨0x81, true⟩, ⟨0x02, false⟩]⟩ (by decide)

/-- C7 counterexample: interface 0 has class `0x0a` and exactly two
endpoints, but both are IN; interface 1 satisfies the claim's full rule
(class `0x0a`, two endpoints, one IN and one OUT).  The claim predicts
interface 1 is selected; the code instead ends the scan at interface 0
and panics on the OUT `unwrap`, selecting nothing. -/
theorem usb_select_claim_fails :
    specInterfaceMatch ⟨0, 0x0a, [⟨0x81, true⟩, ⟨0x02, false⟩]⟩ = true ∧
    from_handle
        [⟨0, [⟨0, 0x0a, [⟨0x81, true⟩, ⟨0x82, true⟩]⟩]⟩,
         ⟨1, [⟨0, 0x0a, [⟨0x81, true⟩, ⟨0x02, false⟩]⟩]⟩] = .panicked ∧
    UsbSelectResult.panicked ≠ .ok 1 0 0x81 0x02 := by
  refine ⟨by decide, by decide, by decide⟩

/-- Modelled from the spec: the `BitWindow` state of the `BitUnpacker`
(§4.3 of the spec; the decoder itself is not part of the sources under
`src/`): an unsigned register holding the valid low-order bits, plus the
count of currently valid bits. -/
structure BitUnpacker where
  window : Nat
  count : Nat
deriving DecidableEq

/-- Modelled from the spec: `feed(nextRawByte)` shifts the window left by
7 bits (`* 2 ^ 7`) and ORs in the low 7 bits of the input (the low 7 bits
of the shifted window are zero, so the OR is the addition of `b % 2 ^ 7`),
increases the valid-bit count by 7, and, if the count reached at least 8,
extracts bits `[count - 8, count)` of the window (`/ 2 ^ (count - 8)`
masked to 8 bits, `% 2 ^ 8`) as the decoded byte, decrementing the count
by 8. -/
def BitUnpacker.feed (s : BitUnpacker) (b : Nat) : BitUnpacker × Option Nat :=
  let w := s.window * 2 ^ 7 + b % 2 ^ 7
  let c := s.count + 7
  if 8 ≤ c then (⟨w, c - 8⟩, some (w / 2 ^ (c - 8) % 2 ^ 8))
  else (⟨w, c⟩, none)

/-- Feeds raw bytes one at a time, collecting every decoded byte in order. -/
def BitUnpacker.feedAll (s : BitUnpacker) : List Nat → BitUnpacker × List Nat
  | [] => (s, [])
  | b :: bs =>
    match s.feed b with
    | (s1, o) =>
      match feedAll s1 bs with
      | (s2, out) => (s2, o.toList ++ out)

/-- Decoding a raw-byte stream through a fresh `BitUnpacker`. -/
def unpack (raws : List Nat) : List Nat := (BitUnpacker.feedAll ⟨0, 0⟩ raws).2

/-- Modelled from the spec: the claim's re-encoding of one byte into two
7-bit-carrying raw bytes — the high 7 bits of the byte, then its last bit
as the top of the second raw byte's 7 payload bits.  Feeding these two
raw bytes to a fresh unpacker decodes the byte back (see the single-byte
conjunct of the counterexample below). -/
def encodeBytePair (b : Nat) : List Nat := [b / 2, b % 2 * 2 ^ 6]

/-- Value of a bit list read most-significant bit first. -/
def bitsVal (l : List Bool) : Nat := l.foldl (fun a bit => 2 * a + cond bit 1 0) 0

/-- The `w` low bits of `b`, most-significant first. -/
def natBitsBE : Nat → Nat → List Bool
  | 0, _ => []
  | w + 1, b => decide (b / 2 ^ w % 2 = 1) :: natBitsBE w b

theorem bitsVal_foldl (l : List Bool) : ∀ a : Nat,
    l.foldl (fun a bit => 2 * a + cond bit 1 0) a = a * 2 ^ l.length + bitsVal l := by
  induction l with
  | nil => intro a; simp [bitsVal]
  | cons x t ih =>
    intro a
    have h1 : bitsVal (x :: t) = (cond x 1 0) * 2 ^ t.length + bitsVal t := by
      show t.foldl _ (2 * 0 + cond x 1 0) = _
      rw [ih (2 * 0 + cond x 1 0)]
      ring_nf
    show t.foldl _ (2 * a + cond x 1 0) = _
    rw [ih (2 * a + cond x 1 0), h1]
    simp [List.length_cons, pow_succ]
    ring

theorem bitsVal_cons (x : Bool) (t : List Bool) :
    bitsVal (x :: t) = (cond x 1 0) * 2 ^ t.length + bitsVal t := by
  show t.foldl _ (2 * 0 + cond x 1 0) = _
  rw [bitsVal_foldl t (2 * 0 + cond x 1 0)]
  ring_nf

theorem bitsVal_append (l1 l2 : List Bool) :
    bitsVal (l1 ++ l2) = bitsVal l1 * 2 ^ l2.length + bitsVal l2 := by
  rw [bitsVal, List.foldl_append]
  exact bitsVal_foldl l2 (bitsVal l1)

theorem bitsVal_lt (l : List Bool) : bitsVal l < 2 ^ l.length := by
  induction l with
  | nil => simp [bitsVal]
  | cons x t ih =>
    rw [bitsVal_cons, List.length_cons, pow_succ]
    rcases x with _ | _ <;> simp <;> omega

theorem length_natBitsBE (w b : Nat) : (natBitsBE w b).length = w := by
  induction w generalizing b with
  | zero => rfl
  | succ w ih => simp [natBitsBE, ih]

theorem nat_mod_pow_succ (b w : Nat) : b % 2 ^ (w + 1) = b / 2 ^ w % 2 * 2 ^ w + b % 2 ^ w := by
  rw [pow_succ, Nat.mod_mul]
  ring

theorem bitsVal_natBitsBE (w : Nat) : ∀ b : Nat, bitsVal (natBitsBE w b) = b % 2 ^ w := by
  induction w with
  | zero => intro b; simp [natBitsBE, bitsVal, Nat.mod_one]
  | succ w ih =>
    intro b
    rw [natBitsBE, bitsVal_cons, length_natBitsBE, ih b, nat_mod_pow_succ]
    rcases Nat.mod_two_eq_zero_or_one (b / 2 ^ w) with h | h <;> simp [h]

theorem natBitsBE_add_high (w : Nat) : ∀ (a r : Nat),
    natBitsBE w (a * 2 ^ w + r) = natBitsBE w r := by
  induction w with
  | zero => intro a r; rfl
  | succ w ih =>
    intro a r
    rw [natBitsBE, natBitsBE]
    have hdiv : (a * 2 ^ (w + 1) + r) / 2 ^ w % 2 = r / 2 ^ w % 2 := by
      rw [pow_succ, show a * (2 ^ w * 2) = a * 2 * 2 ^ w by ring]
      rw [Nat.add_comm, Nat.add_mul_div_right _ _ (Nat.pos_pow_of_pos w (by omega))]
      omega
    have htail : natBitsBE w (a * 2 ^ (w + 1) + r) = natBitsBE w r := by
      rw [pow_succ, show a * (2 ^ w * 2) = a * 2 * 2 ^ w by ring]
      exact ih (a * 2) r
    rw [hdiv, htail]

theorem natBitsBE_bitsVal (l : List Bool) : natBitsBE l.length (bitsVal l) = l := by
  induction l with
  | nil => rfl
  | cons x t ih =>
    rw [List.length_cons, natBitsBE, bitsVal_cons]
    have hlt : bitsVal t < 2 ^ t.length := bitsVal_lt t
    have hdiv : (cond x 1 0 * 2 ^ t.length + bitsVal t) / 2 ^ t.length % 2 = cond x 1 0 := by
      rw [Nat.add_comm, Nat.add_mul_div_right _ _ (Nat.pos_pow_of_pos t.length (by omega))]
      rw [Nat.div_eq_of_lt hlt]
      rcases x with _ | _ <;> simp
    have hhead : decide ((cond x 1 0 * 2 ^ t.length + bitsVal t) / 2 ^ t.length % 2 = 1) = x := by
      rw [hdiv]; rcases x with _ | _ <;> simp
    rw [hhead, natBitsBE_add_high t.length (cond x 1 0) (bitsVal t), ih]

/-- Values of the complete 8-bit chunks of a bit stream, in order; a
trailing incomplete chunk is dropped. -/
def chunks8 (l : List Bool) : List Nat :=
  if h : 8 ≤ l.length then bitsVal (l.take 8) :: chunks8 (l.drop 8) else []
termination_by l.length
decreasing_by simp [List.length_drop]; omega

/-- Feeding raw bytes into an unpacker state whose valid low bits are the
pending bit list `p` yields exactly the values of the complete 8-bit
chunks of `p` followed by the low 7 bits of each raw byte. -/
theorem feedAll_spec : ∀ (raws : List Nat) (w : Nat) (p : List Bool), p.length ≤ 7 →
    w % 2 ^ p.length = bitsVal p →
    (BitUnpacker.feedAll ⟨w, p.length⟩ raws).2 = chunks8 (p ++ raws.flatMap (natBitsBE 7)) := by
  intro raws
  induction raws with
  | nil =>
    intro w p hp hw
    rw [show ([] : List Nat).flatMap (natBitsBE 7) = [] from rfl, List.append_nil]
    rw [BitUnpacker.feedAll, chunks8]
    rw [dif_neg (by omega : ¬ 8 ≤ p.length)]
  | cons r rest ih =>
    intro w p hp hw
    match p with
    | [] =>
      show (BitUnpacker.feedAll ⟨w, 0⟩ (r :: rest)).2
          = chunks8 ([] ++ (r :: rest).flatMap (natBitsBE 7))
      rw [BitUnpacker.feedAll]
      have hstate : BitUnpacker.feed ⟨w, 0⟩ r = (⟨w * 2 ^ 7 + r % 2 ^ 7, 7⟩, none) := by
        rw [BitUnpacker.feed]
        norm_num
      rw [hstate]
      have hlen7 : (natBitsBE 7 r).length = 7 := length_natBitsBE 7 r
      have hmod : (w * 2 ^ 7 + r % 2 ^ 7) % 2 ^ (natBitsBE 7 r).length
          = bitsVal (natBitsBE 7 r) := by
        rw [hlen7, bitsVal_natBitsBE]
        rw [Nat.mul_comm w (2 ^ 7), Nat.mul_add_mod]
        exact Nat.mod_mod_of_dvd r dvd_rfl
      have hres := ih (w * 2 ^ 7 + r % 2 ^ 7) (natBitsBE 7 r) (by rw [hlen7]) hmod
      rw [hlen7] at hres
      simp only [Option.toList, List.nil_append, List.flatMap_cons]
      exact hres
    | x :: t =>
      rw [BitUnpacker.feedAll]
      set L := (x :: t).length with hL
      have hL1 : 1 ≤ L := by simp [hL]
      have hstate : BitUnpacker.feed ⟨w, L⟩ r
          = (⟨w * 2 ^ 7 + r % 2 ^ 7, L - 1⟩,
             some ((w * 2 ^ 7 + r % 2 ^ 7) / 2 ^ (L - 1) % 2 ^ 8)) := by
        rw [BitUnpacker.feed]
        rw [if_pos (by omega : 8 ≤ L + 7)]
        have : L + 7 - 8 = L - 1 := by omega
        rw [this]
      rw [hstate]
      set w1 := w * 2 ^ 7 + r % 2 ^ 7 with hw1
      set full := (x :: t) ++ natBitsBE 7 r with hfull
      have hfl : full.length = L + 7 := by
        simp [hfull, length_natBitsBE, hL]
      have hwin : w1 % 2 ^ (L + 7) = bitsVal full := by
        have h1 : bitsVal full = bitsVal (x :: t) * 2 ^ 7 + r % 2 ^ 7 := by
          rw [hfull, bitsVal_append, length_natBitsBE, bitsVal_natBitsBE]
        have h2 : w1 % 2 ^ (L + 7) = (w % 2 ^ L) * 2 ^ 7 + r % 2 ^ 7 := by
          rw [hw1, pow_add]
          rw [Nat.add_mod, Nat.mul_mod_mul_right]
          have hb : r % 2 ^ 7 % (2 ^ L * 2 ^ 7) = r % 2 ^ 7 := by
            apply Nat.mod_eq_of_lt
            have h4 : r % 2 ^ 7 < 2 ^ 7 := Nat.mod_lt _ (by norm_num)
            have h5 : (2 : Nat) ^ 7 ≤ 2 ^ L * 2 ^ 7 :=
              Nat.le_mul_of_pos_left _ (Nat.pos_pow_of_pos L (by omega))
            omega
          rw [hb]
          have hlt : (w % 2 ^ L) * 2 ^ 7 + r % 2 ^ 7 < 2 ^ L * 2 ^ 7 := by
            have h3 : w % 2 ^ L < 2 ^ L := Nat.mod_lt _ (Nat.pos_pow_of_pos L (by omega))
            have h4 : r % 2 ^ 7 < 2 ^ 7 := Nat.mod_lt _ (by norm_num)
            calc (w % 2 ^ L) * 2 ^ 7 + r % 2 ^ 7
                < (w % 2 ^ L) * 2 ^ 7 + 2 ^ 7 := by omega
              _ = (w % 2 ^ L + 1) * 2 ^ 7 := by ring
              _ ≤ 2 ^ L * 2 ^ 7 := Nat.mul_le_mul_right _ (by omega)
          exact Nat.mod_eq_of_lt hlt
        rw [h1, h2, hw]
      have htake : full = full.take 8 ++ full.drop 8 := (List.take_append_drop 8 full).symm
      have hlt8 : (full.take 8).length = 8 := by
        rw [List.length_take, hfl]; omega
      have hld : (full.drop 8).length = L - 1 := by
        rw [List.length_drop, hfl]; omega
      have hsplit : bitsVal full = bitsVal (full.take 8) * 2 ^ (L - 1) + bitsVal (full.drop 8) := by
        conv =>
          lhs
          rw [htake]
        rw [bitsVal_append, hld]
      have hdlt : bitsVal (full.drop 8) < 2 ^ (L - 1) := by
        have := bitsVal_lt (full.drop 8)
        rwa [hld] at this
      have hout : w1 / 2 ^ (L - 1) % 2 ^ 8 = bitsVal (full.take 8) := by
        have hdm := Nat.div_add_mod w1 (2 ^ (L + 7))
        set Q := w1 / 2 ^ (L + 7) with hQ
        have hpow : (2 : Nat) ^ (L + 7) = 2 ^ (L - 1) * 2 ^ 8 := by
          rw [← pow_add]
          have h9 : L - 1 + 8 = L + 7 := by omega
          rw [h9]
        have hw1eq : w1 = (Q * 2 ^ 8 + bitsVal (full.take 8)) * 2 ^ (L - 1)
            + bitsVal (full.drop 8) := by
          calc w1 = 2 ^ (L + 7) * Q + w1 % 2 ^ (L + 7) := by omega
            _ = 2 ^ (L + 7) * Q + bitsVal full := by rw [hwin]
            _ = (Q * 2 ^ 8 + bitsVal (full.take 8)) * 2 ^ (L - 1)
                + bitsVal (full.drop 8) := by rw [hsplit, hpow]; ring
        rw [hw1eq]
        rw [Nat.add_comm ((Q * 2 ^ 8 + bitsVal (full.take 8)) * 2 ^ (L - 1))
          (bitsVal (full.drop 8))]
        rw [Nat.mul_comm (Q * 2 ^ 8 + bitsVal (full.take 8)) (2 ^ (L - 1))]
        rw [Nat.add_mul_div_left _ _ (Nat.pos_pow_of_pos (L - 1) (by omega))]
        rw [Nat.div_eq_of_lt hdlt]
        have hblt : bitsVal (full.take 8) < 2 ^ 8 := by
          have := bitsVal_lt (full.take 8)
          rwa [hlt8] at this
        rw [Nat.zero_add, Nat.add_comm (Q * 2 ^ 8) (bitsVal (full.take 8)),
          Nat.add_mul_mod_self_right]
        exact Nat.mod_eq_of_lt hblt
      have hnext : w1 % 2 ^ (L - 1) = bitsVal (full.drop 8) := by
        have hdvd : (2 : Nat) ^ (L - 1) ∣ 2 ^ (L + 7) := pow_dvd_pow 2 (by omega)
        rw [← Nat.mod_mod_of_dvd w1 hdvd, hwin, hsplit]
        rw [Nat.add_comm, Nat.add_mul_mod_self_right]
        exact Nat.mod_eq_of_lt hdlt
      have hih := ih w1 (full.drop 8) (by rw [hld]; omega) (by rw [hld]; exact hnext)
      rw [hld] at hih
      simp only [Option.toList]
      rw [hih, hout]
      have hrhs : chunks8 ((x :: t) ++ (r :: rest).flatMap (natBitsBE 7))
          = bitsVal (full.take 8) :: chunks8 (full.drop 8 ++ rest.flatMap (natBitsBE 7)) := by
        rw [List.flatMap_cons, ← List.append_assoc, ← hfull]
        rw [chunks8]
        rw [dif_pos (by rw [List.length_append, hfl]; omega :
          8 ≤ (full ++ rest.flatMap (natBitsBE 7)).length)]
        have ht8 : (full ++ rest.flatMap (natBitsBE 7)).take 8 = full.take 8 := by
          rw [List.take_append_eq_append_take]
          rw [show 8 - full.length = 0 by omega]
          simp
        have hd8 : (full ++ rest.flatMap (natBitsBE 7)).drop 8
            = full.drop 8 ++ rest.flatMap (natBitsBE 7) := by
          rw [List.drop_append_eq_append_drop]
          rw [show 8 - full.length = 0 by omega]
          simp
        rw [ht8, hd8]
      rw [hrhs]
      rfl

/-- Splits a bit list into consecutive groups of (at most) 7 bits. -/
def chunk7 (l : List Bool) : List (List Bool) :=
  if l = [] then [] else l.take 7 :: chunk7 (l.drop 7)
termination_by l.length
decreasing_by
  rename_i hne
  have : l.length ≠ 0 := fun h0 => hne (List.eq_nil_of_length_eq_zero h0)
  simp [List.length_drop]
  omega

/-- Pads a bit list with trailing `false` bits up to a multiple of 7. -/
def pad7 (l : List Bool) : List Bool :=
  l ++ List.replicate ((7 - l.length % 7) % 7) false

/-- Modelled from the spec: the whole-stream 7-bit packing (glossary and
§4.3): the bits of the payload bytes, most-significant first, are carried
7 per raw byte in order, the last raw byte zero-padded. -/
def pack7 (bs : List Nat) : List Nat :=
  (chunk7 (pad7 (bs.flatMap (natBitsBE 8)))).map bitsVal

theorem chunk7_flat (n : Nat) : ∀ l : List Bool, l.length ≤ n → 7 ∣ l.length →
    (chunk7 l).flatMap (fun g => natBitsBE 7 (bitsVal g)) = l := by
  induction n with
  | zero =>
    intro l hn hdvd
    have : l = [] := List.eq_nil_of_length_eq_zero (by omega)
    subst this
    rw [chunk7]
    simp
  | succ n ih =>
    intro l hn hdvd
    by_cases hl : l = []
    · subst hl
      rw [chunk7]
      simp
    · have hpos : 0 < l.length := by
        cases l with
        | nil => exact absurd rfl hl
        | cons a t => simp
      have h7 : 7 ≤ l.length := by
        rcases hdvd with ⟨k, hk⟩
        rcases k with _ | k
        · omega
        · have : l.length = 7 * (k + 1) := hk
          omega
      rw [chunk7, if_neg hl, List.flatMap_cons]
      have htl : (l.take 7).length = 7 := by
        rw [List.length_take]
        omega
      have hrec : (chunk7 (l.drop 7)).flatMap (fun g => natBitsBE 7 (bitsVal g)) = l.drop 7 := by
        apply ih
        · rw [List.length_drop]; omega
        · rw [List.length_drop]
          rcases hdvd with ⟨k, hk⟩
          exact ⟨k - 1, by omega⟩
      have hhead : natBitsBE 7 (bitsVal (l.take 7)) = l.take 7 := by
        have := natBitsBE_bitsVal (l.take 7)
        rwa [htl] at this
      rw [hrec, hhead, List.take_append_drop]

theorem pad7_length_dvd (l : List Bool) : 7 ∣ (pad7 l).length := by
  rw [pad7, List.length_append, List.length_replicate]
  omega

theorem pack7_bits (bs : List Nat) :
    (pack7 bs).flatMap (natBitsBE 7) = pad7 (bs.flatMap (natBitsBE 8)) := by
  rw [pack7]
  have hmap : ∀ gs : List (List Bool),
      (gs.map bitsVal).flatMap (natBitsBE 7) = gs.flatMap (fun g => natBitsBE 7 (bitsVal g)) := by
    intro gs
    induction gs with
    | nil => rfl
    | cons g rest ih => simp [List.flatMap_cons, ih]
  rw [hmap]
  exact chunk7_flat (pad7 (bs.flatMap (natBitsBE 8))).length _ le_rfl
    (pad7_length_dvd (bs.flatMap (natBitsBE 8)))

theorem chunks8_bytes : ∀ (bs : List Nat) (pad : List Bool), (∀ b ∈ bs, b < 256) →
    pad.length < 8 → chunks8 (bs.flatMap (natBitsBE 8) ++ pad) = bs := by
  intro bs
  induction bs with
  | nil =>
    intro pad hb hp
    rw [List.flatMap_nil, List.nil_append, chunks8]
    rw [dif_neg (by omega : ¬ 8 ≤ pad.length)]
  | cons b rest ih =>
    intro pad hb hp
    have hlb : (natBitsBE 8 b).length = 8 := length_natBitsBE 8 b
    rw [List.flatMap_cons, List.append_assoc, chunks8]
    have hlen : 8 ≤ (natBitsBE 8 b ++ (rest.flatMap (natBitsBE 8) ++ pad)).length := by
      rw [List.length_append, hlb]
      omega
    rw [dif_pos hlen]
    have ht8 : (natBitsBE 8 b ++ (rest.flatMap (natBitsBE 8) ++ pad)).take 8 = natBitsBE 8 b := by
      rw [List.take_append_eq_append_take]
      rw [hlb]
      simp
      omega
    have hd8 : (natBitsBE 8 b ++ (rest.flatMap (natBitsBE 8) ++ pad)).drop 8
        = rest.flatMap (natBitsBE 8) ++ pad := by
      rw [List.drop_append_eq_append_drop]
      rw [hlb]
      simp
      omega
    have hv : bitsVal (natBitsBE 8 b) = b := by
      rw [bitsVal_natBitsBE]
      exact Nat.mod_eq_of_lt (hb b (by simp))
    rw [ht8, hd8, hv, ih pad (fun x hx => hb x (by simp [hx])) hp]

/-- C2 (amended): for every byte sequence, packing the sequence's bit
stream 7 bits per raw byte (`pack7`) and feeding the raw bytes one at a
time through `BitUnpacker.feed` reproduces the original sequence exactly
and in order.  (The claim's per-byte re-encoding into exactly two raw
bytes is correct only for sequences of length at most one — see the
counterexample.) -/
theorem bitUnpacker_stream_roundTrip (bs : List Nat) (h : ∀ b ∈ bs, b < 256) :
    unpack (pack7 bs) = bs := by
  have hfeed := feedAll_spec (pack7 bs) 0 [] (by simp) (by simp [bitsVal])
  rw [unpack]
  rw [show ([] : List Bool).length = 0 from rfl] at hfeed
  rw [hfeed, List.nil_append, pack7_bits, pad7]
  exact chunks8_bytes bs _ h (by rw [List.length_replicate]; omega)

theorem bitUnpacker_stream_roundTrip_witness :
    unpack (pack7 [171, 205]) = [171, 205] :=
  bitUnpacker_stream_roundTrip [171, 205] (by decide)

/-- C2 counterexample: re-encoding each byte separately into two
7-bit-carrying raw bytes round-trips a single byte, but already fails for
the two-byte sequence `[0, 0]`: the unpacker's window state persists
across byte boundaries, so the four raw bytes decode to *three* bytes,
not two. -/
theorem pair_encoding_roundTrip_fails :
    unpack (encodeBytePair 0xAB) = [0xAB] ∧
    encodeBytePair 0 ++ encodeBytePair 0 = [0, 0, 0, 0] ∧
    unpack (encodeBytePair 0 ++ encodeBytePair 0) = [0, 0, 0] ∧
    unpack (encodeBytePair 0 ++ encodeBytePair 0) ≠ [0, 0] := by
  refine ⟨by decide, by decide, by decide, by decide⟩

end Sbootil
